import Mathlib

/-!
# stoppiracy: extraction, aggregation and persistence core

A shallow embedding of `stoppiracy.go` and the properties of its pure core.

Conventions of the embedding.

* A Go `string` is a Lean `String` (well-formed UTF-8 text).  Go's `len` is the
  number of bytes of the UTF-8 encoding (`String.utf8ByteSize`); the number of
  characters (runes) of a string is `String.length`.
* A Go slice is a `List`; a `map[string]bool` used as a set is a duplicate-free
  `List String` in insertion order (Go leaves the iteration order unspecified).
* Network and library behaviour that the program consumes is passed in as
  parameters: the Unicode case table behind `strings.ToLower`, the operations of
  `net/url`, the matches of `emailRegex`, and the responses of the HTTP client.
-/

namespace Stoppiracy

/-! ## Go strings and the `strings` package -/

/-- Go's builtin `len` on a string: the number of bytes. -/
def len (s : String) : Nat := s.utf8ByteSize

/-- Naive substring search on character lists: does `sub` start at some position of the list. -/
def listContains (sub : List Char) : List Char → Bool
  | [] => sub.isPrefixOf []
  | c :: cs => sub.isPrefixOf (c :: cs) || listContains sub cs

/-- Go's `strings.Contains(s, substr)`. -/
def Contains (s substr : String) : Bool := listContains substr.data s.data

/-- Go's `strings.HasPrefix(s, prefix)`. -/
def HasPrefix (s pre : String) : Bool := pre.data.isPrefixOf s.data

/-- Go's `unicode.ToLower`: ASCII runes are handled by arithmetic, every other rune goes
through the Unicode case tables, here the parameter `caseTable`. -/
def unicodeToLower (caseTable : Char → Char) (r : Char) : Char :=
  if r.toNat ≤ 0x7F then
    if 'A'.toNat ≤ r.toNat ∧ r.toNat ≤ 'Z'.toNat then Char.ofNat (r.toNat + 32) else r
  else caseTable r

/-- Go's `strings.ToLower`: every rune mapped through `unicode.ToLower`. -/
def ToLower (caseTable : Char → Char) (s : String) : String :=
  ⟨s.data.map (unicodeToLower caseTable)⟩

/-- The string `sub` occurs literally somewhere inside `s`. -/
def IsSubstring (sub s : String) : Prop := ∃ pre post : String, s = pre ++ sub ++ post

/-! ## Keyword matcher -/

/-- `checkKEYBOARD` (stoppiracy.go 62-71): the keywords found in the content, collected by
appending in a loop over the keyword list. -/
def checkKEYBOARD (content : String) (keywords : List String) : List String :=
  keywords.foldl
    (fun matchedKeywords keyword =>
      if Contains content keyword then matchedKeywords ++ [keyword] else matchedKeywords)
    []

/-! ## Data model (stoppiracy.go 33-58) -/

/-- The persisted record of one domain. -/
structure DomainResult where
  Name : String
  Logo : String
  InternalLink : List String
  Email : List String
  Matched : List String
  LastUpdated : String
deriving DecidableEq

/-- The in-flight data collected for one domain. -/
structure DomainData where
  URL : String
  Keywords : List String
  Favicons : List String
  Emails : List String
  InternalLinks : List String
deriving DecidableEq

/-- The file-extension substrings that exclude an href. -/
def excludePatterns : List String :=
  [".jpg", ".png", ".gif", ".webp", ".ico", ".mp4", ".pdf", ".eot",
   ".doc", ".docx", ".xls", ".xlsx", ".woff", ".woff2", ".css", ".json",
   ".xml", ".rss", ".svg", ".yaml", ".yml", ".csv", ".dockerfile", ".cfg",
   ".lock", ".js", ".md", ".toml"]

/-- A `map[string]bool` used as a set of strings. -/
abbrev StringSet := List String

/-- The assignment `m[k] = true` on a set of strings. -/
def setInsert (m : StringSet) (k : String) : StringSet :=
  if k ∈ m then m else m ++ [k]

/-! ## URL normalizer (stoppiracy.go 73-86) -/

/-- What `client.Head` returns: an error, or a response with its status code. -/
inductive HeadResponse where
  | err : HeadResponse
  | resp (StatusCode : Nat) : HeadResponse
deriving DecidableEq

/-- `ensureProtocol`: the input itself when it carries a scheme, else the HTTPS form when
the HEAD probe of it answers without error with status 200, else the HTTP form. -/
def ensureProtocol (input : String) (clientHead : String → HeadResponse) : String :=
  if !HasPrefix input "http://" && !HasPrefix input "https://" then
    let testURL := "https://" ++ input
    match clientHead testURL with
    | .resp StatusCode => if StatusCode == 200 then testURL else "http://" ++ input
    | .err => "http://" ++ input
  else input

/-- A status code of the 200 class, 200 to 299. -/
def is2xx (code : Nat) : Prop := 200 ≤ code ∧ code ≤ 299

/-! ## Favicon selection (stoppiracy.go 146-171) -/

/-- The first loop of `selectShortestFavicon`: the least `len` seen, from a start value. -/
def shortestLength (favicons : List String) (start : Nat) : Nat :=
  favicons.foldl (fun shortest favicon => if len favicon < shortest then len favicon else shortest)
    start

/-- `selectShortestFavicon`: empty string for no candidate, the candidate itself for one,
otherwise the first candidate whose `len` equals the least `len` found by the first loop. -/
def selectShortestFavicon (favicons : List String) : String :=
  match favicons with
  | [] => ""
  | [favicon] => favicon
  | first :: _ =>
    match favicons.find? (fun favicon => len favicon == shortestLength favicons (len first)) with
    | some favicon => favicon
    | none => first

/-! ## Email and link extraction (stoppiracy.go 173-286) -/

/-- `shouldExclude`: the lowercased link contains one of the exclusion patterns. -/
def shouldExclude (caseTable : Char → Char) (link : String) : Bool :=
  let lowerLink := ToLower caseTable link
  excludePatterns.any (fun pattern => Contains lowerLink pattern)

/-- `isValidEmail`: the chain of four rejecting tests. -/
def isValidEmail (caseTable : Char → Char) (email : String) : Bool :=
  if Contains (ToLower caseTable email) "example" then false
  else if Contains (ToLower caseTable email) "email" then false
  else if len email < 5 then false
  else if Contains email ".png" || Contains email ".jpg" ||
      Contains email ".webp" || Contains email ".gif" then false
  else true

/-- The string consists of ASCII characters only, as every match of `emailRegex` does (its
character classes hold ASCII letters, digits and punctuation). -/
def isASCII (s : String) : Bool := s.data.all (fun c => c.toNat ≤ 0x7F)

/-- Some substring of `s` equals `pat` once both are lowercased. -/
def ContainsIgnoreCase (caseTable : Char → Char) (s pat : String) : Prop :=
  ∃ t : String, IsSubstring t s ∧ ToLower caseTable t = ToLower caseTable pat

/-- The operations of Go's `net/url` that the extractor uses. -/
structure NetURL where
  URL : Type
  Parse : String → Option URL
  ResolveReference : URL → URL → URL
  toString : URL → String
  Host : URL → String

/-- The byte slice `s[n:]` on a character list; a character that straddles offset `n` is
dropped whole. -/
def dropBytes : Nat → List Char → List Char
  | 0, cs => cs
  | _, [] => []
  | n + 1, c :: cs => dropBytes (n + 1 - c.utf8Size) cs

/-- The byte slice `s[n:]`. -/
def sliceFrom (s : String) (n : Nat) : String := ⟨dropBytes n s.data⟩

/-- Successive non-overlapping matches of a pattern made of a literal opening, a run of
characters other than the quote `q`, and the quote `q`: the captured runs, left to right.
`skip` counts the characters of the current match still to pass over. -/
def hrefScan (opening : List Char) (q : Char) : Nat → List Char → List (List Char)
  | _, [] => []
  | skip + 1, _ :: cs => hrefScan opening q skip cs
  | 0, c :: cs =>
    let rest := (c :: cs).drop opening.length
    if opening.isPrefixOf (c :: cs) && rest.contains q then
      let captured := rest.takeWhile (fun x => x != q)
      captured :: hrefScan opening q (opening.length + captured.length) cs
    else hrefScan opening q 0 cs

/-- The first submatch of every match of the pattern `href=q([^q]*)q` in the page, for the
quote character `q` (`regexp.FindAllStringSubmatch(html, -1)`, element 1 of each match). -/
def hrefSubmatches (q : Char) (html : String) : List String :=
  (hrefScan ("href=".data ++ [q]) q 0 html.data).map String.mk

/-- The double quote and the single quote of the two href patterns. -/
def hrefQuotes : List Char := [Char.ofNat 34, Char.ofNat 39]

/-- The loop `for _, email := range found`, recording every non-empty valid email. -/
def addValidEmails (caseTable : Char → Char) (emails : StringSet) (found : List String) :
    StringSet :=
  found.foldl
    (fun acc email => if email != "" && isValidEmail caseTable email then setInsert acc email else acc)
    emails

/-- The body of the loop over the href matches (stoppiracy.go 217-274), as a step on the
pair of the email set and the link set.  `findAllEmails s` is
`emailRegex.FindAllString(s, -1)`. -/
def hrefStep (net : NetURL) (caseTable : Char → Char) (findAllEmails : String → List String)
    (targetURL baseURL : String) (st : StringSet × StringSet) (link : String) :
    StringSet × StringSet :=
  if shouldExclude caseTable link then st
  else if HasPrefix (ToLower caseTable link) "mailto:" then
    (addValidEmails caseTable st.1 (findAllEmails (sliceFrom link 7)), st.2)
  else
    let emails := addValidEmails caseTable st.1 (findAllEmails link)
    match net.Parse link with
    | none => (emails, st.2)
    | some absoluteLink =>
      match net.Parse targetURL with
      | none => (emails, st.2)
      | some base =>
        let resolvedLink := net.toString (net.ResolveReference base absoluteLink)
        match net.Parse baseURL with
        | none => (emails, st.2)
        | some baseParsed =>
          match net.Parse resolvedLink with
          | none => (emails, st.2)
          | some resolvedParsed =>
            if net.Host resolvedParsed = net.Host baseParsed then
              (emails, setInsert st.2 resolvedLink)
            else (emails, st.2)

/-- `extractEmailsAndLinksFromHTML`: the href matches of the two patterns in turn, then the
emails of the whole page; returns the email set and the link set. -/
def extractEmailsAndLinksFromHTML (net : NetURL) (caseTable : Char → Char)
    (findAllEmails : String → List String) (html targetURL baseURL : String) :
    StringSet × StringSet :=
  let st := hrefQuotes.foldl
    (fun st q =>
      (hrefSubmatches q html).foldl (hrefStep net caseTable findAllEmails targetURL baseURL) st)
    ([], [])
  (addValidEmails caseTable st.1 (findAllEmails html), st.2)

/-! ## Internal-link task (stoppiracy.go 288-312, 389-428) -/

/-- What `client.Get` followed by `io.ReadAll` yields: a transport error, or a response
with its status code and its body, `none` when the body cannot be read. -/
inductive GetResponse where
  | err : GetResponse
  | resp (StatusCode : Nat) (body : Option String) : GetResponse
deriving DecidableEq

/-- The three error returns of `extractEmailsAndLinks`. -/
inductive FetchError where
  | transport : FetchError
  | httpStatus (StatusCode : Nat) : FetchError
  | readBody : FetchError
deriving DecidableEq

/-- `extractEmailsAndLinks`: fetch the link, and on status 200 with a readable body return
the matched keywords, the emails and the links of that body. -/
def extractEmailsAndLinks (net : NetURL) (caseTable : Char → Char)
    (findAllEmails : String → List String) (targetURL baseURL : String)
    (keywords : List String) (clientGet : String → GetResponse) :
    Except FetchError (List String × StringSet × StringSet) :=
  match clientGet targetURL with
  | .err => .error .transport
  | .resp StatusCode body =>
    if StatusCode != 200 then .error (.httpStatus StatusCode)
    else
      match body with
      | none => .error .readBody
      | some html =>
        let (emails, links) :=
          extractEmailsAndLinksFromHTML net caseTable findAllEmails html targetURL baseURL
        .ok (checkKEYBOARD html keywords, emails, links)

/-- The GET fetch of a link fails: transport error, non-200 status or unreadable body. -/
def fetchFails : GetResponse → Bool
  | .err => true
  | .resp StatusCode body => StatusCode != 200 || body.isNone

/-- The state of one link task.  The three lists hold the values whose send on the
channel has completed, in sending order; `fetched` tells whether the task has issued its
GET.  `keywordChan` has capacity `len(links)` and `processDomain` reads it only after every
task has finished (stoppiracy.go 385, 430-445), so a send on it completes when a slot is
free and never otherwise: `keywordRoom` is the number of further sends of this task that
find a free slot.  `emailChan` is drained by `processDomain` while the tasks run, and
`internalLinkChan` has one slot per task and gets at most one value from each, so a send
on either of them always completes. -/
structure LinkTaskState where
  emailChan : List String
  keywordChan : List String
  internalLinkChan : List String
  keywordRoom : Nat
  fetched : Bool
deriving DecidableEq

/-- How a piece of a link task ends: it runs to its end with a result, or it blocks for
good on a send, in the state reached before that send. -/
inductive Run (α : Type) where
  | done (result : α) : Run α
  | blocked (st : LinkTaskState) : Run α
deriving DecidableEq

/-- The state in which a link task ends, finished or blocked. -/
def Run.state : Run LinkTaskState → LinkTaskState
  | .done st => st
  | .blocked st => st

/-- The send `keywordChan <- keyword`: the state after it, or `none` when the buffer is
full and the task blocks. -/
def sendKeyword (st : LinkTaskState) (keyword : String) : Option LinkTaskState :=
  if 0 < st.keywordRoom then
    some { st with keywordChan := st.keywordChan ++ [keyword], keywordRoom := st.keywordRoom - 1 }
  else none

/-- The keyword pre-check on the link text (stoppiracy.go 396-405): for every keyword whose
lowercase form occurs in `linkLower`, send it and raise `linkMatched`. -/
def linkTextCheck (caseTable : Char → Char) (linkLower : String) :
    List String → LinkTaskState × Bool → Run (LinkTaskState × Bool)
  | [], acc => .done acc
  | keyword :: rest, (st, linkMatched) =>
    if Contains linkLower (ToLower caseTable keyword) then
      match sendKeyword st keyword with
      | some st' => linkTextCheck caseTable linkLower rest (st', true)
      | none => .blocked st
    else linkTextCheck caseTable linkLower rest (st, linkMatched)

/-- The loop `for _, keyword := range linkKeywords` (stoppiracy.go 418-420). -/
def sendKeywords : List String → LinkTaskState → Run LinkTaskState
  | [], st => .done st
  | keyword :: rest, st =>
    match sendKeyword st keyword with
    | some st' => sendKeywords rest st'
    | none => .blocked st

/-- The last step of a link task (stoppiracy.go 423-426): send the link when it matched. -/
def sendLinkIfMatched (st : LinkTaskState) (linkMatched : Bool) (l : String) : LinkTaskState :=
  if linkMatched then { st with internalLinkChan := st.internalLinkChan ++ [l] } else st

/-- The task that `processDomain` launches for the link `l` (stoppiracy.go 391-427), started
with `keywordRoom` free slots for its sends on `keywordChan`. -/
def linkTask (net : NetURL) (caseTable : Char → Char) (findAllEmails : String → List String)
    (domainURL : String) (keywords : List String) (clientGet : String → GetResponse)
    (keywordRoom : Nat) (l : String) : Run LinkTaskState :=
  let start : LinkTaskState :=
    { emailChan := [], keywordChan := [], internalLinkChan := [], keywordRoom := keywordRoom,
      fetched := false }
  match linkTextCheck caseTable (ToLower caseTable l) keywords (start, false) with
  | .blocked st => .blocked st
  | .done (st, linkMatched) =>
    let st := { st with fetched := true }
    match extractEmailsAndLinks net caseTable findAllEmails l domainURL keywords clientGet with
    | .ok (linkKeywords, emails, _) =>
      let st := { st with emailChan := st.emailChan ++ emails }
      let linkMatched := if linkKeywords.length > 0 then true else linkMatched
      match sendKeywords linkKeywords st with
      | .blocked st => .blocked st
      | .done st => .done (sendLinkIfMatched st linkMatched l)
    | .error _ => .done (sendLinkIfMatched st linkMatched l)

/-! ## Result aggregation (stoppiracy.go 691-717) -/

/-- The record that `main` builds from the data of a processed domain; `currentDate` is
the value of `getCurrentDate()`. -/
def domainResult (data : DomainData) (currentDate : String) : DomainResult :=
  let logo := selectShortestFavicon data.Favicons
  let logo := if logo == "" then "-" else logo
  let emails := data.Emails
  let emails := if emails.length == 0 then ["-"] else emails
  let internalLinks := data.InternalLinks
  let internalLinks := if internalLinks.length == 0 then [] else internalLinks
  { Name := data.URL
    Logo := logo
    InternalLink := internalLinks
    Email := emails
    Matched := data.Keywords
    LastUpdated := currentDate }

/-! ## Persistence (stoppiracy.go 526-538) -/

/-- The search loop of `updateJSONFile`: overwrite the first record of the same name and
stop; returns the records and the flag `found`. -/
def updateLoop (newResult : DomainResult) : List DomainResult → List DomainResult × Bool
  | [] => ([], false)
  | result :: rest =>
    if result.Name = newResult.Name then (newResult :: rest, true)
    else
      let (rest', found) := updateLoop newResult rest
      (result :: rest', found)

/-- The merge step of `updateJSONFile` on the parsed store: update in place, else append. -/
def updateJSONFile (results : List DomainResult) (newResult : DomainResult) :
    List DomainResult :=
  let (results', found) := updateLoop newResult results
  if !found then results' ++ [newResult] else results'

/-- The records of a store that carry the name `name`. -/
def recordsNamed (name : String) (store : List DomainResult) : List DomainResult :=
  store.filter (fun r => r.Name = name)

/-! ## Sample records -/

/-- A record of a first site. -/
def siteA : DomainResult := ⟨"http://a.test", "-", [], ["-"], [], "2024-01-01"⟩
/-- A record of a second site. -/
def siteB : DomainResult := ⟨"http://b.test", "-", [], ["-"], [], "2024-01-01"⟩
/-- A later record of the second site. -/
def siteB1 : DomainResult := ⟨"http://b.test", "http://b.test/f.ico", [], ["-"], ["k"], "2024-01-02"⟩
/-- A still later record of the second site. -/
def siteB2 : DomainResult := ⟨"http://b.test", "http://b.test/g.ico", [], ["i@b.test"], ["k"], "2024-01-03"⟩
/-- A record of a third site. -/
def siteC : DomainResult := ⟨"http://c.test", "-", [], ["-"], [], "2024-01-01"⟩

/-! ## Sample collaborators -/

/-- A `net/url` for absolute URLs only: the URL is its text, a reference replaces the
base, and the host is the text between the double slash and the next slash. -/
def textURL : NetURL where
  URL := String
  Parse := fun s => some s
  ResolveReference := fun _ ref => ref
  toString := fun u => u
  Host := fun u =>
    ⟨((u.data.dropWhile (fun c => c != '/')).drop 2).takeWhile (fun c => c != '/')⟩

/-- A client whose every GET fails at the transport level. -/
def offlineGet : String → GetResponse := fun _ => GetResponse.err

/-- A link that parses as a URL whose host equals the host of the parsed base URL. -/
def SameHost (net : NetURL) (baseURL l : String) : Prop :=
  ∃ u b, net.Parse l = some u ∧ net.Parse baseURL = some b ∧ net.Host u = net.Host b

/-- A page with one link to its own host and two links to other hosts, one of them
carrying the name of the own host in its path. -/
def samplePage : String :=
  "<a href=\"http://site.test/watch\">a</a> <a href='http://other.test/site.test'>b</a> " ++
    "<a href=\"http://cdn.test/watch\">c</a>"

/-! ## Favicon resolver (stoppiracy.go 88-125) -/

/-- The loop of `strings.Split` for a non-empty separator, on character lists: `cur` is the
piece collected so far, `skip` counts the characters of the separator just found that are
still to pass over. -/
def splitLoop (sep : List Char) : Nat → List Char → List Char → List (List Char)
  | _, cur, [] => [cur]
  | skip + 1, cur, _ :: cs => splitLoop sep skip cur cs
  | 0, cur, c :: cs =>
    if sep.isPrefixOf (c :: cs) then cur :: splitLoop sep (sep.length - 1) [] cs
    else splitLoop sep 0 (cur ++ [c]) cs

/-- Go's `strings.Split(s, sep)`: the pieces of `s` between the successive occurrences of
`sep`; for the empty separator, one piece per character. -/
def Split (s sep : String) : List String :=
  if sep.data.isEmpty then s.data.map (fun c => String.mk [c])
  else (splitLoop sep.data 0 [] s.data).map String.mk

/-- The truncation step of `getFaviconUrlsFromHTML` (stoppiracy.go 113-118) on the absolute
URL of a favicon.  `(Split ..).headD ""` is element 0 of the split, which always exists. -/
def truncateFaviconURL (absoluteURL : String) : String :=
  if Contains absoluteURL ".png" then (Split absoluteURL ".png").headD "" ++ ".png"
  else if Contains absoluteURL ".ico" then (Split absoluteURL ".ico").headD "" ++ ".ico"
  else absoluteURL

/-- `getFaviconUrlsFromHTML`: every icon href made absolute and truncated.  `iconHrefs` gives
the `href` attributes of the selected `link` elements of the parsed page in document order
(`none` when the page cannot be read), `resolvePath base href` is
`base.ResolveReference(&url.URL{Path: href}).String()`. -/
def getFaviconUrlsFromHTML (net : NetURL) (resolvePath : net.URL → String → String)
    (iconHrefs : String → Option (List String)) (htmlContent baseURL : String) :
    Option (List String) :=
  match iconHrefs htmlContent with
  | none => none
  | some hrefs =>
    match net.Parse baseURL with
    | none => none
    | some base =>
      some (hrefs.foldl
        (fun favicons href =>
          let absoluteURL := if HasPrefix href "http" then href else resolvePath base href
          favicons ++ [truncateFaviconURL absoluteURL])
        [])

/-- `getFaviconUrls` (stoppiracy.go 127-144): the fallback probe of `/favicon.ico`, kept
when the GET answers with status 200. -/
def getFaviconUrls (net : NetURL) (resolvePath : net.URL → String → String)
    (clientGet : String → GetResponse) (baseURL : String) : Option (List String) :=
  match net.Parse baseURL with
  | none => none
  | some base =>
    let faviconURL := resolvePath base "/favicon.ico"
    match clientGet faviconURL with
    | .resp StatusCode _ => if StatusCode == 200 then some [faviconURL] else some []
    | .err => some []

/-- Step 3 of `processDomain` (stoppiracy.go 358-368): the value of `data.Favicons`, from
the page when it names a favicon, else from the fallback probe, else empty. -/
def processDomainFavicons (net : NetURL) (resolvePath : net.URL → String → String)
    (iconHrefs : String → Option (List String)) (clientGet : String → GetResponse)
    (htmlContent domainURL : String) : List String :=
  let fallback :=
    match getFaviconUrls net resolvePath clientGet domainURL with
    | some fallbackFavicons => if fallbackFavicons.length > 0 then fallbackFavicons else []
    | none => []
  match getFaviconUrlsFromHTML net resolvePath iconHrefs htmlContent domainURL with
  | some favicons => if favicons.length > 0 then favicons else fallback
  | none => fallback

/-- The string `r` is the prefix of `u` that ends immediately after the first occurrence of
`pat` in `u`: `u` splits as `pre ++ pat ++ post`, no occurrence of `pat` in `u` starts
before the end of `pre`, and `r` is `pre ++ pat`. -/
def EndsAfterFirst (pat u r : String) : Prop :=
  ∃ pre post : String, u = pre ++ pat ++ post ∧
    (∀ pre' post' : String, u = pre' ++ pat ++ post' → pre.length ≤ pre'.length) ∧
    r = pre ++ pat

/-- A ".png" favicon URL whose host name contains ".ico". -/
def iconOnIconsHost : String := "http://img.icons.test/favicon.png"

/-! ## Lemmas on strings -/

theorem listContains_iff (sub l : List Char) :
    listContains sub l = true ↔ sub <:+: l := by
  induction l with
  | nil =>
    simp only [listContains, List.isPrefixOf_iff_prefix, List.prefix_nil, List.infix_nil]
  | cons c cs ih =>
    simp only [listContains, Bool.or_eq_true, List.isPrefixOf_iff_prefix, ih,
      List.infix_cons_iff]

theorem Contains_iff_data (s sub : String) :
    Contains s sub = true ↔ sub.data <:+: s.data :=
  listContains_iff sub.data s.data

theorem isSubstring_iff_data (sub s : String) :
    IsSubstring sub s ↔ sub.data <:+: s.data := by
  constructor
  · rintro ⟨pre, post, rfl⟩
    exact ⟨pre.data, post.data, by simp [String.data_append]⟩
  · rintro ⟨a, b, h⟩
    refine ⟨⟨a⟩, ⟨b⟩, ?_⟩
    apply String.ext
    simp [String.data_append, h]

theorem Contains_iff (s sub : String) : Contains s sub = true ↔ IsSubstring sub s := by
  rw [Contains_iff_data, isSubstring_iff_data]

/-- An ASCII character is encoded in one byte. -/
theorem utf8Size_ascii (c : Char) (h : c.toNat ≤ 0x7F) : c.utf8Size = 1 := by
  have h' : c.val ≤ UInt32.ofNatCore 127 (by decide) := by
    show c.val.toNat ≤ 127
    exact h
  unfold Char.utf8Size
  rw [if_pos h']

theorem utf8ByteSize_go_ascii (l : List Char) (h : ∀ c ∈ l, c.toNat ≤ 0x7F) :
    String.utf8ByteSize.go l = l.length := by
  induction l with
  | nil => rfl
  | cons c cs ih =>
    have hc := utf8Size_ascii c (h c (List.mem_cons_self _ _))
    have hcs := ih (fun x hx => h x (List.mem_cons_of_mem _ hx))
    show String.utf8ByteSize.go cs + c.utf8Size = cs.length + 1
    rw [hc, hcs]

/-- On a string of ASCII characters the length in bytes is the number of characters. -/
theorem len_ascii (s : String) (h : ∀ c ∈ s.data, c.toNat ≤ 0x7F) : len s = s.length :=
  utf8ByteSize_go_ascii s.data h

/-! ## Lemmas on the keyword matcher -/

theorem checkKEYBOARD_loop (content : String) (keywords acc : List String) :
    keywords.foldl
      (fun matchedKeywords keyword =>
        if Contains content keyword then matchedKeywords ++ [keyword] else matchedKeywords)
      acc = acc ++ keywords.filter (fun k => Contains content k) := by
  induction keywords generalizing acc with
  | nil => simp
  | cons k ks ih =>
    simp only [List.foldl_cons, ih, List.filter_cons]
    by_cases h : Contains content k = true <;> simp [h]

theorem checkKEYBOARD_eq_filter (content : String) (keywords : List String) :
    checkKEYBOARD content keywords = keywords.filter (fun k => Contains content k) := by
  simp [checkKEYBOARD, checkKEYBOARD_loop]

/-! ## C1 -/

/-- C1: for every keyword list `K` and body `B`, a string is returned by
`checkKEYBOARD B K` exactly when it is a member of `K` that occurs as a literal
(case-sensitive) substring of `B`. -/
theorem checkKEYBOARD_exact (B : String) (K : List String) (k : String) :
    k ∈ checkKEYBOARD B K ↔ k ∈ K ∧ IsSubstring k B := by
  rw [checkKEYBOARD_eq_filter, List.mem_filter, Contains_iff]

/-! ## Lemmas on the persistence layer -/

theorem updateLoop_absent (r : DomainResult) (l : List DomainResult)
    (h : ∀ y ∈ l, y.Name ≠ r.Name) : updateLoop r l = (l, false) := by
  induction l with
  | nil => rfl
  | cons y ys ih =>
    have hy : y.Name ≠ r.Name := h y (List.mem_cons_self _ _)
    have hys : ∀ z ∈ ys, z.Name ≠ r.Name := fun z hz => h z (List.mem_cons_of_mem _ hz)
    simp [updateLoop, hy, ih hys]

theorem updateLoop_present (r x : DomainResult) (pre post : List DomainResult)
    (hx : x.Name = r.Name) (hpre : ∀ y ∈ pre, y.Name ≠ r.Name) :
    updateLoop r (pre ++ x :: post) = (pre ++ r :: post, true) := by
  induction pre with
  | nil => simp [updateLoop, hx]
  | cons y ys ih =>
    have hy : y.Name ≠ r.Name := hpre y (List.mem_cons_self _ _)
    have hys : ∀ z ∈ ys, z.Name ≠ r.Name := fun z hz => hpre z (List.mem_cons_of_mem _ hz)
    simp [updateLoop, hy, ih hys]

theorem updateJSONFile_absent (r : DomainResult) (l : List DomainResult)
    (h : ∀ y ∈ l, y.Name ≠ r.Name) : updateJSONFile l r = l ++ [r] := by
  simp [updateJSONFile, updateLoop_absent r l h]

theorem updateJSONFile_present (r x : DomainResult) (pre post : List DomainResult)
    (hx : x.Name = r.Name) (hpre : ∀ y ∈ pre, y.Name ≠ r.Name) :
    updateJSONFile (pre ++ x :: post) r = pre ++ r :: post := by
  simp [updateJSONFile, updateLoop_present r x pre post hx hpre]

/-- Splitting a store at its first record of a given name. -/
theorem exists_first_named (n : String) (l : List DomainResult)
    (h : ∃ x ∈ l, x.Name = n) :
    ∃ pre x post, l = pre ++ x :: post ∧ x.Name = n ∧ ∀ y ∈ pre, y.Name ≠ n := by
  induction l with
  | nil => simp at h
  | cons y ys ih =>
    by_cases hy : y.Name = n
    · exact ⟨[], y, ys, rfl, hy, by simp⟩
    · have h' : ∃ x ∈ ys, x.Name = n := by
        obtain ⟨x, hx, hxn⟩ := h
        rcases List.mem_cons.1 hx with rfl | hx'
        · exact absurd hxn hy
        · exact ⟨x, hx', hxn⟩
      obtain ⟨pre, x, post, rfl, hxn, hpre⟩ := ih h'
      refine ⟨y :: pre, x, post, rfl, hxn, ?_⟩
      intro z hz
      rcases List.mem_cons.1 hz with rfl | hz'
      · exact hy
      · exact hpre z hz'

/-! ## C2 -/

/-- C2: the merge step of `updateJSONFile`, for every store and every new record `r`.
If some record of the store has the name of `r`, the store splits as `pre ++ x :: post`
at the first such record `x`, and the result is `pre ++ r :: post`: that record replaced
by `r` at the same position, every other record unchanged, the length unchanged.
Otherwise the result is the store with `r` appended at the end. -/
theorem updateJSONFile_upsert (store : List DomainResult) (r : DomainResult) :
    ((∃ x ∈ store, x.Name = r.Name) →
      ∃ pre x post, store = pre ++ x :: post ∧ x.Name = r.Name ∧
        (∀ y ∈ pre, y.Name ≠ r.Name) ∧
        updateJSONFile store r = pre ++ r :: post ∧
        (updateJSONFile store r).length = store.length) ∧
    ((∀ x ∈ store, x.Name ≠ r.Name) → updateJSONFile store r = store ++ [r]) := by
  refine ⟨fun h => ?_, updateJSONFile_absent r store⟩
  obtain ⟨pre, x, post, rfl, hx, hpre⟩ := exists_first_named r.Name store h
  refine ⟨pre, x, post, rfl, hx, hpre, updateJSONFile_present r x pre post hx hpre, ?_⟩
  rw [updateJSONFile_present r x pre post hx hpre]
  simp


/-- The two cases of C2 on a store that holds the name twice and on one that lacks it. -/
theorem updateJSONFile_upsert_witness :
    (∃ pre x post, [siteA, siteB, siteB1] = pre ++ x :: post ∧ x.Name = siteB2.Name ∧
        (∀ y ∈ pre, y.Name ≠ siteB2.Name) ∧
        updateJSONFile [siteA, siteB, siteB1] siteB2 = pre ++ siteB2 :: post ∧
        (updateJSONFile [siteA, siteB, siteB1] siteB2).length = [siteA, siteB, siteB1].length) ∧
    updateJSONFile [siteA] siteB2 = [siteA] ++ [siteB2] :=
  ⟨(updateJSONFile_upsert [siteA, siteB, siteB1] siteB2).1 ⟨siteB, by decide, rfl⟩,
    (updateJSONFile_upsert [siteA] siteB2).2 (by decide)⟩

/-! ## Lemmas on repeated writes -/

theorem recordsNamed_eq_nil (n : String) (l : List DomainResult)
    (h : ∀ y ∈ l, y.Name ≠ n) : recordsNamed n l = [] := by
  simp only [recordsNamed, List.filter_eq_nil_iff, decide_eq_true_eq]
  exact h

/-- After a write of `r`, the records named like `r` are `r` followed by the records that
carried the name before, the first of them apart. -/
theorem recordsNamed_updateJSONFile (store : List DomainResult) (r : DomainResult) :
    recordsNamed r.Name (updateJSONFile store r) = r :: (recordsNamed r.Name store).tail := by
  by_cases h : ∃ x ∈ store, x.Name = r.Name
  · obtain ⟨pre, x, post, rfl, hx, hpre⟩ := exists_first_named r.Name store h
    rw [updateJSONFile_present r x pre post hx hpre]
    have hp := recordsNamed_eq_nil r.Name pre hpre
    simp only [recordsNamed] at hp ⊢
    simp [List.filter_append, List.filter_cons, hp, hx]
  · have h' : ∀ y ∈ store, y.Name ≠ r.Name := fun y hy hn => h ⟨y, hy, hn⟩
    rw [updateJSONFile_absent r store h']
    have hp := recordsNamed_eq_nil r.Name store h'
    simp only [recordsNamed] at hp ⊢
    simp [List.filter_append, hp]

/-- A write does not touch the records of another name. -/
theorem recordsNamed_updateJSONFile_other (store : List DomainResult) (r : DomainResult)
    (n : String) (hn : r.Name ≠ n) :
    recordsNamed n (updateJSONFile store r) = recordsNamed n store := by
  by_cases h : ∃ x ∈ store, x.Name = r.Name
  · obtain ⟨pre, x, post, rfl, hx, hpre⟩ := exists_first_named r.Name store h
    rw [updateJSONFile_present r x pre post hx hpre]
    have hxn : x.Name ≠ n := by rw [hx]; exact hn
    simp [recordsNamed, List.filter_append, List.filter_cons, hn, hxn]
  · have h' : ∀ y ∈ store, y.Name ≠ r.Name := fun y hy hn => h ⟨y, hy, hn⟩
    rw [updateJSONFile_absent r store h']
    simp [recordsNamed, List.filter_append, hn]

/-! ## C3 -/

/-- C3, as the claim states it, fails on a store that already holds the name twice: after
the writes of `siteB1` and then `siteB2` (same name) into `[siteB, siteB]` the store still
holds two records of that name, `siteB2` and the untouched second `siteB`. -/
theorem updateJSONFile_twice_duplicates :
    siteB1.Name = siteB2.Name ∧
    updateJSONFile (updateJSONFile [siteB, siteB] siteB1) siteB2 = [siteB2, siteB] ∧
    recordsNamed siteB2.Name (updateJSONFile (updateJSONFile [siteB, siteB] siteB1) siteB2) ≠
      [siteB2] := by
  decide

/-- C3 (amended): for every store that holds at most one record of the name, and every
two records `r1`, `r2` of that name, writing `r1` and then `r2` leaves exactly one record
of that name in the store, and it is `r2`. -/
theorem updateJSONFile_twice (store : List DomainResult) (r1 r2 : DomainResult)
    (hname : r1.Name = r2.Name) (hone : (recordsNamed r1.Name store).length ≤ 1) :
    recordsNamed r2.Name (updateJSONFile (updateJSONFile store r1) r2) = [r2] := by
  rw [recordsNamed_updateJSONFile, ← hname, recordsNamed_updateJSONFile]
  simp only [List.tail_cons]
  have : (recordsNamed r1.Name store).tail = [] := by
    cases hl : recordsNamed r1.Name store with
    | nil => rfl
    | cons a t =>
      rw [hl, List.length_cons] at hone
      have ht : t.length = 0 := by omega
      simpa using ht
  rw [this]

/-- C3 (amended) on a store that holds the name once and on one that lacks it. -/
theorem updateJSONFile_twice_witness :
    recordsNamed siteB2.Name (updateJSONFile (updateJSONFile [siteA, siteB, siteC] siteB1) siteB2)
      = [siteB2] ∧
    recordsNamed siteB2.Name (updateJSONFile (updateJSONFile [siteA] siteB1) siteB2) =
      [siteB2] :=
  ⟨updateJSONFile_twice [siteA, siteB, siteC] siteB1 siteB2 (by decide) (by decide),
    updateJSONFile_twice [siteA] siteB1 siteB2 (by decide) (by decide)⟩

/-! ## Lemmas on writes of distinct names -/

theorem foldl_updateJSONFile_distinct (order acc : List DomainResult)
    (h : ((acc ++ order).map DomainResult.Name).Nodup) :
    order.foldl updateJSONFile acc = acc ++ order := by
  induction order generalizing acc with
  | nil => simp
  | cons r rs ih =>
    have hr : ∀ y ∈ acc, y.Name ≠ r.Name := by
      intro y hy heq
      rw [List.map_append, List.map_cons, List.nodup_append] at h
      exact h.2.2 (List.mem_map_of_mem _ hy) (by rw [heq]; exact List.mem_cons_self _ _)
    rw [List.foldl_cons, updateJSONFile_absent r acc hr, ih (acc ++ [r])]
    · simp
    · simpa using h

/-! ## C4 -/

/-- C4: starting from the empty store, one write for each of the records `rs`, whose names
are pairwise distinct, made in any order `order` (a permutation of `rs`), yields a store
with exactly as many records as `rs`, no two of them sharing a name, and containing each
record of `rs`. -/
theorem updateJSONFile_distinct (rs order : List DomainResult)
    (hnames : (rs.map DomainResult.Name).Nodup) (horder : order.Perm rs) :
    (order.foldl updateJSONFile []).length = rs.length ∧
    ((order.foldl updateJSONFile []).map DomainResult.Name).Nodup ∧
    ∀ r ∈ rs, r ∈ order.foldl updateJSONFile [] := by
  have hn : (order.map DomainResult.Name).Nodup :=
    ((horder.map DomainResult.Name).nodup_iff).2 hnames
  have hfold : order.foldl updateJSONFile [] = order := by
    simpa using foldl_updateJSONFile_distinct order [] (by simpa using hn)
  rw [hfold]
  exact ⟨horder.length_eq, hn, fun r hr => horder.mem_iff.2 hr⟩

/-- C4 on three records written in the order third, first, second. -/
theorem updateJSONFile_distinct_witness :
    ([siteC, siteA, siteB2].foldl updateJSONFile []).length = [siteA, siteB2, siteC].length ∧
    (([siteC, siteA, siteB2].foldl updateJSONFile []).map DomainResult.Name).Nodup ∧
    ∀ r ∈ [siteA, siteB2, siteC], r ∈ [siteC, siteA, siteB2].foldl updateJSONFile [] :=
  updateJSONFile_distinct [siteA, siteB2, siteC] [siteC, siteA, siteB2] (by decide) (by decide)

/-! ## Lemmas on favicon selection -/

/-- The first loop of `selectShortestFavicon` computes a lower bound of its start value and
of every length in the list, and that bound is the start value or is attained. -/
theorem shortestLength_spec (l : List String) (start : Nat) :
    shortestLength l start ≤ start ∧ (∀ f ∈ l, shortestLength l start ≤ len f) ∧
      (shortestLength l start = start ∨ ∃ f ∈ l, len f = shortestLength l start) := by
  induction l generalizing start with
  | nil => simp [shortestLength]
  | cons a t ih =>
    have hstep : shortestLength (a :: t) start =
        shortestLength t (if len a < start then len a else start) := rfl
    rw [hstep]
    obtain ⟨h1, h2, h3⟩ := ih (if len a < start then len a else start)
    by_cases hlt : len a < start
    · rw [if_pos hlt] at h1 h2 h3 ⊢
      refine ⟨by omega, ?_, Or.inr ?_⟩
      · intro f hf
        rcases List.mem_cons.1 hf with rfl | hf'
        · exact h1
        · exact h2 f hf'
      · rcases h3 with h | ⟨f, hf, hfm⟩
        · exact ⟨a, List.mem_cons_self _ _, h.symm⟩
        · exact ⟨f, List.mem_cons_of_mem _ hf, hfm⟩
    · rw [if_neg hlt] at h1 h2 h3 ⊢
      refine ⟨h1, ?_, ?_⟩
      · intro f hf
        rcases List.mem_cons.1 hf with rfl | hf'
        · omega
        · exact h2 f hf'
      · rcases h3 with h | ⟨f, hf, hfm⟩
        · exact Or.inl h
        · exact Or.inr ⟨f, List.mem_cons_of_mem _ hf, hfm⟩

/-- On a non-empty list `selectShortestFavicon` returns the first candidate of least `len`:
the list splits around the result, every candidate is at least as long, and every earlier
candidate is strictly longer. -/
theorem selectShortestFavicon_first_min (favicons : List String) (hne : favicons ≠ []) :
    ∃ pre post, favicons = pre ++ selectShortestFavicon favicons :: post ∧
      (∀ f ∈ favicons, len (selectShortestFavicon favicons) ≤ len f) ∧
      (∀ f ∈ pre, len (selectShortestFavicon favicons) < len f) := by
  match favicons, hne with
  | [a], _ => exact ⟨[], [], rfl, by simp [selectShortestFavicon], by simp⟩
  | a :: b :: t, _ =>
    obtain ⟨_, h2, h3⟩ := shortestLength_spec (a :: b :: t) (len a)
    have hatt : ∃ f ∈ a :: b :: t, len f = shortestLength (a :: b :: t) (len a) := by
      rcases h3 with h | h
      · exact ⟨a, List.mem_cons_self _ _, h.symm⟩
      · exact h
    obtain ⟨f, hf, hfm⟩ := hatt
    cases hfind : (a :: b :: t).find?
        (fun favicon => len favicon == shortestLength (a :: b :: t) (len a)) with
    | none =>
      rw [List.find?_eq_none] at hfind
      exact absurd (by simpa using hfm) (hfind f hf)
    | some g =>
      have hsel : selectShortestFavicon (a :: b :: t) = g := by
        simp only [selectShortestFavicon, hfind]
      rw [hsel]
      rw [List.find?_eq_some] at hfind
      obtain ⟨hg, pre, post, hsplit, hpre⟩ := hfind
      have hg' : len g = shortestLength (a :: b :: t) (len a) := by simpa using hg
      refine ⟨pre, post, hsplit, ?_, ?_⟩
      · intro x hx
        rw [hg']
        exact h2 x hx
      · intro x hx
        have hxm : x ∈ a :: b :: t := by
          rw [hsplit]; exact List.mem_append_left _ hx
        have hle := h2 x hxm
        have hneq : len x ≠ shortestLength (a :: b :: t) (len a) := by
          simpa using hpre x hx
        omega

theorem selectShortestFavicon_mem (favicons : List String) (hne : favicons ≠ []) :
    selectShortestFavicon favicons ∈ favicons := by
  obtain ⟨pre, post, hsplit, _, _⟩ := selectShortestFavicon_first_min favicons hne
  have h : selectShortestFavicon favicons ∈ pre ++ selectShortestFavicon favicons :: post :=
    List.mem_append_right _ (List.mem_cons_self _ _)
  rw [← hsplit] at h
  exact h

/-! ## C5 -/

/-- C5, as the claim states it, fails when lengths are counted in characters: of the two
candidates below the second has fewer characters (15 against 16), but more bytes (17
against 16), and `selectShortestFavicon` returns the first. -/
theorem selectShortestFavicon_not_fewest_characters :
    selectShortestFavicon ["http://x/abc.ico", "http://x/éé.ico"] = "http://x/abc.ico" ∧
    "http://x/éé.ico" ∈ ["http://x/abc.ico", "http://x/éé.ico"] ∧
    "http://x/éé.ico".length <
      (selectShortestFavicon ["http://x/abc.ico", "http://x/éé.ico"]).length := by
  decide

/-- C5 (amended): for every non-empty list of candidate favicon URLs,
`selectShortestFavicon` returns a member of the list whose length in bytes (Go's `len`) is
minimal among all candidates, and among the candidates of that minimal length the one that
occurs first in the list (every candidate before it is strictly longer); for the empty
list it returns the empty string. -/
theorem selectShortestFavicon_spec (favicons : List String) :
    (favicons = [] → selectShortestFavicon favicons = "") ∧
    (favicons ≠ [] →
      selectShortestFavicon favicons ∈ favicons ∧
      (∀ f ∈ favicons, len (selectShortestFavicon favicons) ≤ len f) ∧
      ∃ pre post, favicons = pre ++ selectShortestFavicon favicons :: post ∧
        ∀ f ∈ pre, len (selectShortestFavicon favicons) < len f) := by
  refine ⟨fun h => by rw [h]; rfl, fun hne => ?_⟩
  obtain ⟨pre, post, hsplit, hmin, hpre⟩ := selectShortestFavicon_first_min favicons hne
  exact ⟨selectShortestFavicon_mem favicons hne, hmin, pre, post, hsplit, hpre⟩

/-- C5 (amended) on three candidates, two of them of the least length. -/
theorem selectShortestFavicon_spec_witness :
    selectShortestFavicon ["/abc.ico", "/b.ico", "/a.ico"] ∈ ["/abc.ico", "/b.ico", "/a.ico"] ∧
    (∀ f ∈ ["/abc.ico", "/b.ico", "/a.ico"],
      len (selectShortestFavicon ["/abc.ico", "/b.ico", "/a.ico"]) ≤ len f) ∧
    ∃ pre post, ["/abc.ico", "/b.ico", "/a.ico"] =
        pre ++ selectShortestFavicon ["/abc.ico", "/b.ico", "/a.ico"] :: post ∧
      ∀ f ∈ pre, len (selectShortestFavicon ["/abc.ico", "/b.ico", "/a.ico"]) < len f :=
  (selectShortestFavicon_spec ["/abc.ico", "/b.ico", "/a.ico"]).2 (by decide)

/-! ## Lemmas on the email filter -/

theorem ToLower_data (caseTable : Char → Char) (s : String) :
    (ToLower caseTable s).data = s.data.map (unicodeToLower caseTable) := rfl

/-- Searching the lowercased text for a lowercased pattern is case-insensitive search. -/
theorem Contains_ToLower_iff (caseTable : Char → Char) (s pat : String) :
    Contains (ToLower caseTable s) (ToLower caseTable pat) = true ↔
      ContainsIgnoreCase caseTable s pat := by
  rw [Contains_iff_data, ToLower_data, ToLower_data]
  constructor
  · rintro ⟨a, b, h⟩
    obtain ⟨l₁, l₂, hs, h₁, _⟩ := List.map_eq_append_iff.1 h.symm
    obtain ⟨l₃, l₄, hl₁, _, h₄⟩ := List.map_eq_append_iff.1 h₁
    refine ⟨⟨l₄⟩, (isSubstring_iff_data _ _).2 ⟨l₃, l₂, ?_⟩, ?_⟩
    · rw [hs, hl₁]
    · apply String.ext
      rw [ToLower_data, ToLower_data]
      exact h₄
  · rintro ⟨t, ht, heq⟩
    have h := ((isSubstring_iff_data _ _).1 ht).map (unicodeToLower caseTable)
    have hd := congrArg String.data heq
    rw [ToLower_data, ToLower_data] at hd
    rw [← hd]
    exact h

theorem ToLower_example (caseTable : Char → Char) :
    ToLower caseTable "example" = "example" := rfl

theorem ToLower_email (caseTable : Char → Char) : ToLower caseTable "email" = "email" := rfl

/-- The four rejecting tests of `isValidEmail`, as one disjunction. -/
theorem isValidEmail_eq_false_iff (caseTable : Char → Char) (s : String) :
    isValidEmail caseTable s = false ↔
      ContainsIgnoreCase caseTable s "example" ∨ ContainsIgnoreCase caseTable s "email" ∨
      len s < 5 ∨ IsSubstring ".png" s ∨ IsSubstring ".jpg" s ∨ IsSubstring ".webp" s ∨
      IsSubstring ".gif" s := by
  rw [← Contains_ToLower_iff, ← Contains_ToLower_iff, ToLower_example, ToLower_email,
    ← Contains_iff, ← Contains_iff, ← Contains_iff, ← Contains_iff]
  unfold isValidEmail
  by_cases h1 : Contains (ToLower caseTable s) "example" = true
  · simp [h1]
  by_cases h2 : Contains (ToLower caseTable s) "email" = true
  · simp [h1, h2]
  by_cases h3 : len s < 5
  · simp [h1, h2, h3]
  simp only [h1, h2, h3, if_false, false_or, Bool.false_eq_true]
  by_cases h4 : Contains s ".png" = true
  · simp [h4]
  by_cases h5 : Contains s ".jpg" = true
  · simp [h5]
  by_cases h6 : Contains s ".webp" = true
  · simp [h6]
  by_cases h7 : Contains s ".gif" = true
  · simp [h7]
  simp [h4, h5, h6, h7]

/-- A string shorter (in characters) than a pattern does not contain it in any case. -/
theorem Contains_ToLower_short (caseTable : Char → Char) (s pat : String)
    (h : s.length < pat.length) : Contains (ToLower caseTable s) pat = false := by
  cases hc : Contains (ToLower caseTable s) pat with
  | false => rfl
  | true =>
    have hle := ((Contains_iff_data _ _).1 hc).length_le
    rw [ToLower_data, List.length_map] at hle
    have h' : s.data.length < pat.data.length := h
    omega

/-- The length test of `isValidEmail` counts bytes: the string below is not ASCII, has 4
characters and 5 bytes, and is accepted for every case table.  This is why the statement
on the strings that `isValidEmail` receives asks for ASCII. -/
theorem isValidEmail_four_characters :
    "é@bc".length < 5 ∧ ∀ caseTable : Char → Char, isValidEmail caseTable "é@bc" = true := by
  refine ⟨by decide, fun caseTable => ?_⟩
  have h1 := Contains_ToLower_short caseTable "é@bc" "example" (by decide)
  have h2 := Contains_ToLower_short caseTable "é@bc" "email" (by decide)
  have h3 : ¬ len "é@bc" < 5 := by decide
  have h4 : (Contains "é@bc" ".png" || Contains "é@bc" ".jpg" ||
      Contains "é@bc" ".webp" || Contains "é@bc" ".gif") = false := by decide
  simp [isValidEmail, h1, h2, h3, h4]

theorem isASCII_iff (s : String) : isASCII s = true ↔ ∀ c ∈ s.data, c.toNat ≤ 0x7F := by
  simp [isASCII, List.all_eq_true]

/-! ## C6 -/

/-- C6: for every string `s` that `isValidEmail` receives (it is called on matches of
`emailRegex` only, which are ASCII strings), `isValidEmail s` is false if and only if `s`
contains "example" case-insensitively, or `s` contains "email" case-insensitively, or `s`
is under 5 characters long, or `s` contains one of the substrings ".png", ".jpg", ".webp",
".gif"; every other such string is accepted; "a@b.co" is accepted and "test@example.com"
is rejected. -/
theorem isValidEmail_exact (caseTable : Char → Char) (s : String) (hascii : isASCII s = true) :
    (isValidEmail caseTable s = false ↔
      ContainsIgnoreCase caseTable s "example" ∨ ContainsIgnoreCase caseTable s "email" ∨
      s.length < 5 ∨ IsSubstring ".png" s ∨ IsSubstring ".jpg" s ∨ IsSubstring ".webp" s ∨
      IsSubstring ".gif" s) ∧
    (¬ (ContainsIgnoreCase caseTable s "example" ∨ ContainsIgnoreCase caseTable s "email" ∨
        s.length < 5 ∨ IsSubstring ".png" s ∨ IsSubstring ".jpg" s ∨ IsSubstring ".webp" s ∨
        IsSubstring ".gif" s) → isValidEmail caseTable s = true) ∧
    isValidEmail caseTable "a@b.co" = true ∧
    isValidEmail caseTable "test@example.com" = false := by
  have hiff := isValidEmail_eq_false_iff caseTable s
  rw [len_ascii s ((isASCII_iff s).1 hascii)] at hiff
  refine ⟨hiff, fun hnot => ?_, rfl, rfl⟩
  cases hv : isValidEmail caseTable s with
  | true => rfl
  | false => exact absurd (hiff.1 hv) hnot

/-- C6 on the two addresses that the claim names: "test@example.com" is rejected because it
contains "example", and "a@b.co", 6 characters long, fires none of the tests. -/
theorem isValidEmail_exact_witness :
    isValidEmail id "test@example.com" = false ∧
    ¬ (ContainsIgnoreCase id "a@b.co" "example" ∨ ContainsIgnoreCase id "a@b.co" "email" ∨
      "a@b.co".length < 5 ∨ IsSubstring ".png" "a@b.co" ∨ IsSubstring ".jpg" "a@b.co" ∨
      IsSubstring ".webp" "a@b.co" ∨ IsSubstring ".gif" "a@b.co") :=
  ⟨(isValidEmail_exact id "test@example.com" (by decide)).1.2
      (Or.inl ⟨"example", ⟨"test@", ".com", by decide⟩, rfl⟩),
    fun h => absurd ((isValidEmail_exact id "a@b.co" (by decide)).1.2 h) (by decide)⟩

/-! ## Lemmas on the URL normalizer -/

theorem http_ne_https (input : String) : "http://" ++ input ≠ "https://" ++ input := by
  intro h
  have hd := congrArg String.data h
  rw [String.data_append, String.data_append] at hd
  have h4 := congrArg (fun l => l.get? 4) hd
  simp at h4

/-- `ensureProtocol` on an input without scheme, by the outcome of the probe. -/
theorem ensureProtocol_no_scheme (input : String) (clientHead : String → HeadResponse)
    (h1 : HasPrefix input "http://" = false) (h2 : HasPrefix input "https://" = false) :
    ensureProtocol input clientHead =
      if clientHead ("https://" ++ input) = HeadResponse.resp 200 then "https://" ++ input
      else "http://" ++ input := by
  unfold ensureProtocol
  simp only [h1, h2, Bool.not_false, Bool.and_self, if_true]
  cases hc : clientHead ("https://" ++ input) with
  | err => simp
  | resp code =>
    by_cases h200 : code = 200
    · simp [h200]
    · simp [h200]

/-! ## C7 -/

/-- C7, as the claim states it, fails for a probe that completes without error with a
status of the 200 class other than 200: on status 204 `ensureProtocol` returns the HTTP
form, not the HTTPS form. -/
theorem ensureProtocol_status_204 :
    is2xx 204 ∧
    ensureProtocol "site.test" (fun _ => HeadResponse.resp 204) = "http://site.test" ∧
    ensureProtocol "site.test" (fun _ => HeadResponse.resp 204) ≠ "https://" ++ "site.test" := by
  refine ⟨by unfold is2xx; omega, by decide, by decide⟩

/-- C7 (amended): for every raw input string and every outcome of the HTTPS probe,
`ensureProtocol` returns the input unchanged when it already starts with "http://" or
"https://"; otherwise it returns "https://"+input exactly when the probe completed without
error with status 200, and "http://"+input in every other case. -/
theorem ensureProtocol_spec (input : String) (clientHead : String → HeadResponse) :
    ((HasPrefix input "http://" = true ∨ HasPrefix input "https://" = true) →
      ensureProtocol input clientHead = input) ∧
    (¬ (HasPrefix input "http://" = true ∨ HasPrefix input "https://" = true) →
      (ensureProtocol input clientHead = "https://" ++ input ↔
        clientHead ("https://" ++ input) = HeadResponse.resp 200) ∧
      (clientHead ("https://" ++ input) ≠ HeadResponse.resp 200 →
        ensureProtocol input clientHead = "http://" ++ input)) := by
  constructor
  · intro h
    unfold ensureProtocol
    rcases h with h | h <;> simp [h]
  · intro h
    have h1 : HasPrefix input "http://" = false := by
      cases hp : HasPrefix input "http://" with
      | false => rfl
      | true => exact absurd (Or.inl hp) h
    have h2 : HasPrefix input "https://" = false := by
      cases hp : HasPrefix input "https://" with
      | false => rfl
      | true => exact absurd (Or.inr hp) h
    rw [ensureProtocol_no_scheme input clientHead h1 h2]
    by_cases hc : clientHead ("https://" ++ input) = HeadResponse.resp 200
    · simp [hc]
    · rw [if_neg hc]
      exact ⟨⟨fun h => absurd h (http_ne_https input), fun h => absurd h hc⟩, fun _ => rfl⟩

/-- C7 (amended) on an input with a scheme, and on a bare host probed with status 200 and
with a failing probe. -/
theorem ensureProtocol_spec_witness :
    ensureProtocol "http://site.test" (fun _ => HeadResponse.err) = "http://site.test" ∧
    ensureProtocol "site.test" (fun _ => HeadResponse.resp 200) = "https://" ++ "site.test" ∧
    ensureProtocol "site.test" (fun _ => HeadResponse.err) = "http://" ++ "site.test" :=
  ⟨(ensureProtocol_spec "http://site.test" (fun _ => HeadResponse.err)).1 (by decide),
    (((ensureProtocol_spec "site.test" (fun _ => HeadResponse.resp 200)).2 (by decide)).1).2 rfl,
    ((ensureProtocol_spec "site.test" (fun _ => HeadResponse.err)).2 (by decide)).2 (by decide)⟩

/-! ## Lemmas on result aggregation -/

/-- The fields of the record built by `main`, for any data whatever. -/
theorem domainResult_fields (d : DomainData) (currentDate : String) :
    (domainResult d currentDate).Name = d.URL ∧
    (selectShortestFavicon d.Favicons ≠ "" →
      (domainResult d currentDate).Logo = selectShortestFavicon d.Favicons) ∧
    ((d.Favicons ≠ [] ∧ ∀ f ∈ d.Favicons, f ≠ "") →
      (domainResult d currentDate).Logo = selectShortestFavicon d.Favicons) ∧
    ((d.Favicons = [] ∨ selectShortestFavicon d.Favicons = "") →
      (domainResult d currentDate).Logo = "-") ∧
    (d.Emails ≠ [] → (domainResult d currentDate).Email = d.Emails) ∧
    (d.Emails = [] → (domainResult d currentDate).Email = ["-"]) ∧
    (domainResult d currentDate).InternalLink = d.InternalLinks ∧
    (domainResult d currentDate).Matched = d.Keywords := by
  have hlogo : selectShortestFavicon d.Favicons ≠ "" →
      (domainResult d currentDate).Logo = selectShortestFavicon d.Favicons := by
    intro h
    simp [domainResult, h]
  refine ⟨rfl, hlogo, ?_, ?_, ?_, ?_, ?_, rfl⟩
  · rintro ⟨hne, hall⟩
    exact hlogo (hall _ (selectShortestFavicon_mem d.Favicons hne))
  · intro h
    have hsel : selectShortestFavicon d.Favicons = "" := by
      rcases h with h | h
      · rw [h]; rfl
      · exact h
    simp [domainResult, hsel]
  · intro h
    simp [domainResult, h]
  · intro h
    simp [domainResult, h]
  · cases hl : d.InternalLinks with
    | nil => simp [domainResult, hl]
    | cons a t => simp [domainResult, hl]

/-- The logo test of `main` looks at the selected string, not at the list: a list holding
only the empty string gives the sentinel.  `processDomain` never produces such a list (see
`processDomainFavicons_nonempty`), which is why the statement on completed data asks for
favicons that are not empty strings. -/
theorem domainResult_empty_favicon :
    ([""] : List String) ≠ [] ∧ selectShortestFavicon [""] = "" ∧
    (domainResult ⟨"http://a.test", [], [""], [], []⟩ "2024-01-01").Logo = "-" := by
  decide

/-! ## C8 -/

/-- C8: for every completed `DomainData` `d` (its favicons are those collected by
`processDomain`, none of which is the empty string), the record built from it has name
`d.URL`; logo equal to the shortest favicon of `d.Favicons` (a member of the list of least
`len`) when at least one favicon exists and the sentinel "-" when none exists; email equal
to `d.Emails` when it is non-empty and the one-element list ["-"] when it is empty;
internalLink equal to `d.InternalLinks` (empty, with no sentinel, when there are none);
and matched equal to `d.Keywords` verbatim. -/
theorem domainResult_completed (d : DomainData) (currentDate : String)
    (hfav : ∀ f ∈ d.Favicons, f ≠ "") :
    (domainResult d currentDate).Name = d.URL ∧
    (d.Favicons ≠ [] →
      (domainResult d currentDate).Logo = selectShortestFavicon d.Favicons ∧
      (domainResult d currentDate).Logo ∈ d.Favicons ∧
      ∀ f ∈ d.Favicons, len (domainResult d currentDate).Logo ≤ len f) ∧
    (d.Favicons = [] → (domainResult d currentDate).Logo = "-") ∧
    (d.Emails ≠ [] → (domainResult d currentDate).Email = d.Emails) ∧
    (d.Emails = [] → (domainResult d currentDate).Email = ["-"]) ∧
    (domainResult d currentDate).InternalLink = d.InternalLinks ∧
    (domainResult d currentDate).Matched = d.Keywords := by
  obtain ⟨hname, _, hlogo, hnone, hmail, hnomail, hlinks, hmatched⟩ :=
    domainResult_fields d currentDate
  refine ⟨hname, fun hne => ?_, fun he => hnone (Or.inl he), hmail, hnomail, hlinks, hmatched⟩
  have hl := hlogo ⟨hne, hfav⟩
  obtain ⟨_, _, _, hmin, _⟩ := selectShortestFavicon_first_min d.Favicons hne
  rw [hl]
  exact ⟨rfl, selectShortestFavicon_mem d.Favicons hne, hmin⟩

/-- C8 on the data of a domain with two favicons and one email, and on data with no favicon
and no email. -/
theorem domainResult_completed_witness :
    (domainResult ⟨"http://a.test", ["k"], ["http://a.test/icon.png", "http://a.test/f.ico"],
        ["i@a.test"], ["http://a.test/k"]⟩ "2024-01-01").Logo = "http://a.test/f.ico" ∧
    (domainResult ⟨"http://a.test", ["k"], ["http://a.test/icon.png", "http://a.test/f.ico"],
        ["i@a.test"], ["http://a.test/k"]⟩ "2024-01-01").Email = ["i@a.test"] ∧
    (domainResult ⟨"http://a.test", [], [], [], []⟩ "2024-01-01").Logo = "-" ∧
    (domainResult ⟨"http://a.test", [], [], [], []⟩ "2024-01-01").Email = ["-"] :=
  ⟨(((domainResult_completed ⟨"http://a.test", ["k"],
        ["http://a.test/icon.png", "http://a.test/f.ico"], ["i@a.test"], ["http://a.test/k"]⟩
        "2024-01-01" (by decide)).2.1 (by decide)).1).trans (by decide),
    (domainResult_completed ⟨"http://a.test", ["k"],
        ["http://a.test/icon.png", "http://a.test/f.ico"], ["i@a.test"], ["http://a.test/k"]⟩
        "2024-01-01" (by decide)).2.2.2.1 (by decide),
    (domainResult_completed ⟨"http://a.test", [], [], [], []⟩ "2024-01-01" (by decide)).2.2.1
      rfl,
    (domainResult_completed ⟨"http://a.test", [], [], [], []⟩ "2024-01-01" (by decide)).2.2.2.2.1
      rfl⟩

/-! ## Lemmas on the internal-link task -/

/-- A failed fetch makes `extractEmailsAndLinks` return an error. -/
theorem extractEmailsAndLinks_error (net : NetURL) (caseTable : Char → Char)
    (findAllEmails : String → List String) (targetURL baseURL : String)
    (keywords : List String) (clientGet : String → GetResponse)
    (hfail : fetchFails (clientGet targetURL) = true) :
    ∃ e, extractEmailsAndLinks net caseTable findAllEmails targetURL baseURL keywords clientGet
      = Except.error e := by
  unfold extractEmailsAndLinks
  cases hc : clientGet targetURL with
  | err => exact ⟨_, rfl⟩
  | resp code body =>
    rw [hc] at hfail
    by_cases h200 : code = 200
    · subst h200
      cases body with
      | none => exact ⟨_, rfl⟩
      | some html => simp [fetchFails] at hfail
    · exact ⟨FetchError.httpStatus code, by simp [h200]⟩

/-- The pre-check loop, by the number of free slots: with room for every matching keyword
it sends them all and raises the flag when there is one; otherwise it blocks after as many
sends as there were free slots, before the GET. -/
theorem linkTextCheck_run (caseTable : Char → Char) (linkLower : String)
    (keywords : List String) (st : LinkTaskState) (linkMatched : Bool) :
    linkTextCheck caseTable linkLower keywords (st, linkMatched) =
      if (keywords.filter (fun k => Contains linkLower (ToLower caseTable k))).length
          ≤ st.keywordRoom then
        Run.done
          ({ st with
              keywordChan := st.keywordChan ++
                keywords.filter (fun k => Contains linkLower (ToLower caseTable k))
              keywordRoom := st.keywordRoom -
                (keywords.filter (fun k => Contains linkLower (ToLower caseTable k))).length },
            linkMatched || keywords.any (fun k => Contains linkLower (ToLower caseTable k)))
      else
        Run.blocked
          { st with
            keywordChan := st.keywordChan ++
              (keywords.filter (fun k => Contains linkLower (ToLower caseTable k))).take
                st.keywordRoom
            keywordRoom := 0 } := by
  induction keywords generalizing st linkMatched with
  | nil => simp [linkTextCheck]
  | cons k ks ih =>
    by_cases hk : Contains linkLower (ToLower caseTable k) = true
    · by_cases hroom : 0 < st.keywordRoom
      · have hstep : linkTextCheck caseTable linkLower (k :: ks) (st, linkMatched) =
            linkTextCheck caseTable linkLower ks
              ({ st with keywordChan := st.keywordChan ++ [k],
                         keywordRoom := st.keywordRoom - 1 }, true) := by
          simp [linkTextCheck, sendKeyword, hk, hroom]
        rw [hstep, ih]
        simp only [List.filter_cons, hk, if_true, List.length_cons, List.any_cons,
          Bool.true_or, Bool.or_true]
        by_cases hfit : (ks.filter (fun k => Contains linkLower (ToLower caseTable k))).length
            ≤ st.keywordRoom - 1
        · have hfit' : (ks.filter (fun k => Contains linkLower (ToLower caseTable k))).length + 1
              ≤ st.keywordRoom := by omega
          rw [if_pos hfit, if_pos hfit']
          simp only [List.append_assoc, List.singleton_append]
          congr 3
          omega
        · have hfit' : ¬ (ks.filter (fun k => Contains linkLower (ToLower caseTable k))).length + 1
              ≤ st.keywordRoom := by omega
          rw [if_neg hfit, if_neg hfit']
          have hr : st.keywordRoom = (st.keywordRoom - 1) + 1 := by omega
          conv_rhs => rw [hr, List.take_succ_cons]
          simp
      · have hzero : st.keywordRoom = 0 := by omega
        have hstep : linkTextCheck caseTable linkLower (k :: ks) (st, linkMatched) =
            Run.blocked st := by
          simp [linkTextCheck, sendKeyword, hk, hroom]
        rw [hstep]
        cases st
        simp only at hzero
        simp [List.filter_cons, hk, hzero]
    · have hstep : linkTextCheck caseTable linkLower (k :: ks) (st, linkMatched) =
          linkTextCheck caseTable linkLower ks (st, linkMatched) := by
        simp [linkTextCheck, hk]
      rw [hstep, ih]
      simp [List.filter_cons, hk]

theorem any_eq_filter_nonempty (p : String → Bool) (l : List String) :
    l.any p = !(l.filter p).isEmpty := by
  induction l with
  | nil => rfl
  | cons a t ih =>
    by_cases h : p a = true
    · simp [List.filter_cons, h]
    · simp [List.filter_cons, h, ih]

/-- The run of a link task whose fetch fails: with room for the keywords of its pre-check it
finishes, having sent those keywords and, when there is one, the link; otherwise it blocks
in the pre-check, before the GET. -/
theorem linkTask_failed_run (net : NetURL) (caseTable : Char → Char)
    (findAllEmails : String → List String) (domainURL : String) (keywords : List String)
    (clientGet : String → GetResponse) (keywordRoom : Nat) (l : String)
    (hfail : fetchFails (clientGet l) = true) :
    linkTask net caseTable findAllEmails domainURL keywords clientGet keywordRoom l =
      if (keywords.filter
          (fun k => Contains (ToLower caseTable l) (ToLower caseTable k))).length ≤ keywordRoom
      then
        Run.done
          { emailChan := []
            keywordChan :=
              keywords.filter (fun k => Contains (ToLower caseTable l) (ToLower caseTable k))
            internalLinkChan :=
              if (keywords.filter
                  (fun k => Contains (ToLower caseTable l) (ToLower caseTable k))).isEmpty
              then [] else [l]
            keywordRoom := keywordRoom - (keywords.filter
              (fun k => Contains (ToLower caseTable l) (ToLower caseTable k))).length
            fetched := true }
      else
        Run.blocked
          { emailChan := []
            keywordChan := (keywords.filter
              (fun k => Contains (ToLower caseTable l) (ToLower caseTable k))).take keywordRoom
            internalLinkChan := []
            keywordRoom := 0
            fetched := false } := by
  obtain ⟨e, he⟩ := extractEmailsAndLinks_error net caseTable findAllEmails l domainURL
    keywords clientGet hfail
  unfold linkTask
  simp only [linkTextCheck_run, he]
  by_cases hfit : (keywords.filter
      (fun k => Contains (ToLower caseTable l) (ToLower caseTable k))).length ≤ keywordRoom
  · simp only [hfit, if_true, List.nil_append, Bool.false_or, sendLinkIfMatched,
      any_eq_filter_nonempty]
    cases hempty : (keywords.filter
        (fun k => Contains (ToLower caseTable l) (ToLower caseTable k))).isEmpty <;> simp
  · simp only [hfit, if_false, List.nil_append]

/-! ## C9 -/

/-- C9, as the claim states it, fails for a link whose text contains a keyword: the task of
the link below (the only link, so one slot on `keywordChan`) issues its GET, the GET fails,
and the task has sent the keyword "movie" and sends the link itself as a confirmed
internal link. -/
theorem linkTask_failed_fetch_still_sends :
    fetchFails (offlineGet "http://site.test/Movie-night") = true ∧
    linkTask textURL id (fun _ => []) "http://site.test" ["movie", "series"] offlineGet 1
        "http://site.test/Movie-night" =
      Run.done
        { emailChan := [], keywordChan := ["movie"],
          internalLinkChan := ["http://site.test/Movie-night"], keywordRoom := 0,
          fetched := true } := by
  decide

/-- C9 (amended): for every internal-link task of `processDomain` that issues its GET and
whose GET fetch fails (transport error, non-200 status or unreadable body), and for every
keyword list and link URL: the task runs to its end and emits no email; every keyword it
emits is a keyword of the list that occurs, case-insensitively, in the text of the link
URL (sent by the pre-check before the GET); it emits the link itself as a confirmed
internal link exactly when it has emitted such a keyword; and a link in whose URL text no
keyword occurs contributes nothing. -/
theorem linkTask_failed_fetch (net : NetURL) (caseTable : Char → Char)
    (findAllEmails : String → List String) (domainURL : String) (keywords : List String)
    (clientGet : String → GetResponse) (keywordRoom : Nat) (l : String)
    (hfetched :
      (linkTask net caseTable findAllEmails domainURL keywords clientGet keywordRoom l).state.fetched
        = true)
    (hfail : fetchFails (clientGet l) = true) :
    (∃ st, linkTask net caseTable findAllEmails domainURL keywords clientGet keywordRoom l =
      Run.done st) ∧
    (linkTask net caseTable findAllEmails domainURL keywords clientGet keywordRoom l).state.emailChan
      = [] ∧
    (∀ k ∈ (linkTask net caseTable findAllEmails domainURL keywords clientGet keywordRoom
        l).state.keywordChan, k ∈ keywords ∧ ContainsIgnoreCase caseTable l k) ∧
    (linkTask net caseTable findAllEmails domainURL keywords clientGet keywordRoom
        l).state.internalLinkChan =
      (if (linkTask net caseTable findAllEmails domainURL keywords clientGet keywordRoom
        l).state.keywordChan.isEmpty then [] else [l]) ∧
    ((∀ k ∈ keywords, ¬ ContainsIgnoreCase caseTable l k) →
      (linkTask net caseTable findAllEmails domainURL keywords clientGet keywordRoom
        l).state.keywordChan = [] ∧
      (linkTask net caseTable findAllEmails domainURL keywords clientGet keywordRoom
        l).state.internalLinkChan = []) := by
  have hrun := linkTask_failed_run net caseTable findAllEmails domainURL keywords clientGet
    keywordRoom l hfail
  by_cases hfit : (keywords.filter
      (fun k => Contains (ToLower caseTable l) (ToLower caseTable k))).length ≤ keywordRoom
  · rw [if_pos hfit] at hrun
    rw [hrun]
    refine ⟨⟨_, rfl⟩, rfl, ?_, rfl, ?_⟩
    · intro k hk
      have hk' := List.mem_filter.1 hk
      exact ⟨hk'.1, (Contains_ToLower_iff caseTable l k).1 (by simpa using hk'.2)⟩
    · intro hnone
      have hnil : keywords.filter
          (fun k => Contains (ToLower caseTable l) (ToLower caseTable k)) = [] := by
        rw [List.filter_eq_nil_iff]
        intro k hk hc
        exact hnone k hk ((Contains_ToLower_iff caseTable l k).1 hc)
      simp [Run.state, hnil]
  · rw [if_neg hfit] at hrun
    rw [hrun] at hfetched
    simp [Run.state] at hfetched

/-- C9 (amended) on a link without keyword in its text whose GET answers 404, and on a link
with a keyword in its path whose GET fails in transport. -/
theorem linkTask_failed_fetch_witness :
    (linkTask textURL id (fun _ => []) "http://site.test" ["movie", "series"]
        (fun _ => GetResponse.resp 404 (some "movie")) 1 "http://site.test/about").state.keywordChan
      = [] ∧
    (linkTask textURL id (fun _ => []) "http://site.test" ["movie", "series"]
        (fun _ => GetResponse.resp 404 (some "movie")) 1
        "http://site.test/about").state.internalLinkChan = [] ∧
    (linkTask textURL id (fun _ => []) "http://site.test" ["movie", "series"] offlineGet 1
        "http://site.test/Movie-night").state.emailChan = [] := by
  have hd : ∀ k ∈ ["movie", "series"],
      Contains (ToLower id "http://site.test/about") (ToLower id k) = false := by decide
  have hno : ∀ k ∈ ["movie", "series"], ¬ ContainsIgnoreCase id "http://site.test/about" k := by
    intro k hk h
    have hc := (Contains_ToLower_iff id "http://site.test/about" k).2 h
    rw [hd k hk] at hc
    cases hc
  have h404 := (linkTask_failed_fetch textURL id (fun _ => []) "http://site.test"
    ["movie", "series"] (fun _ => GetResponse.resp 404 (some "movie")) 1 "http://site.test/about"
    (by decide) (by decide)).2.2.2.2 hno
  exact ⟨h404.1, h404.2,
    (linkTask_failed_fetch textURL id (fun _ => []) "http://site.test" ["movie", "series"]
      offlineGet 1 "http://site.test/Movie-night" (by decide) (by decide)).2.1⟩

/-- A task whose link text holds more keywords than `keywordChan` has free slots blocks in
the pre-check: it never issues its GET and never sends the link.  Here one link gives the
channel one slot and the link text holds two keywords. -/
theorem linkTask_blocks_before_fetch :
    linkTask textURL id (fun _ => []) "http://site.test" ["movie", "night"] offlineGet 1
        "http://site.test/Movie-night" =
      Run.blocked
        { emailChan := [], keywordChan := ["movie"], internalLinkChan := [], keywordRoom := 0,
          fetched := false } := by
  decide

/-! ## Lemmas on link extraction -/

theorem mem_setInsert (m : StringSet) (k x : String) :
    x ∈ setInsert m k ↔ x ∈ m ∨ x = k := by
  unfold setInsert
  by_cases h : k ∈ m
  · rw [if_pos h]
    constructor
    · exact Or.inl
    · rintro (hx | rfl)
      · exact hx
      · exact h
  · rw [if_neg h]
    simp

/-- One step of the href loop keeps every recorded link on the host of the base URL. -/
theorem hrefStep_sameHost (net : NetURL) (caseTable : Char → Char)
    (findAllEmails : String → List String) (targetURL baseURL : String)
    (st : StringSet × StringSet) (link : String)
    (h : ∀ l ∈ st.2, SameHost net baseURL l) :
    ∀ l ∈ (hrefStep net caseTable findAllEmails targetURL baseURL st link).2,
      SameHost net baseURL l := by
  unfold hrefStep
  by_cases hex : shouldExclude caseTable link = true
  · rw [if_pos hex]; exact h
  rw [if_neg hex]
  by_cases hmail : HasPrefix (ToLower caseTable link) "mailto:" = true
  · rw [if_pos hmail]; exact h
  rw [if_neg hmail]
  cases h1 : net.Parse link with
  | none => exact h
  | some absoluteLink =>
    cases h2 : net.Parse targetURL with
    | none => exact h
    | some base =>
      cases h3 : net.Parse baseURL with
      | none => exact h
      | some baseParsed =>
        cases h4 : net.Parse (net.toString (net.ResolveReference base absoluteLink)) with
        | none =>
          simp only [h4]
          exact h
        | some resolvedParsed =>
          simp only [h4]
          by_cases hhost : net.Host resolvedParsed = net.Host baseParsed
          · rw [if_pos hhost]
            intro l hl
            rcases (mem_setInsert _ _ _).1 hl with hl' | rfl
            · exact h l hl'
            · exact ⟨resolvedParsed, baseParsed, h4, h3, hhost⟩
          · rw [if_neg hhost]
            exact h

theorem foldl_hrefStep_sameHost (net : NetURL) (caseTable : Char → Char)
    (findAllEmails : String → List String) (targetURL baseURL : String)
    (hrefs : List String) (st : StringSet × StringSet)
    (h : ∀ l ∈ st.2, SameHost net baseURL l) :
    ∀ l ∈ (hrefs.foldl (hrefStep net caseTable findAllEmails targetURL baseURL) st).2,
      SameHost net baseURL l := by
  induction hrefs generalizing st with
  | nil => exact h
  | cons a t ih =>
    rw [List.foldl_cons]
    exact ih _ (hrefStep_sameHost net caseTable findAllEmails targetURL baseURL st a h)

theorem extract_links_sameHost (net : NetURL) (caseTable : Char → Char)
    (findAllEmails : String → List String) (html targetURL baseURL : String) :
    ∀ l ∈ (extractEmailsAndLinksFromHTML net caseTable findAllEmails html targetURL baseURL).2,
      SameHost net baseURL l := by
  unfold extractEmailsAndLinksFromHTML
  simp only [hrefQuotes, List.foldl_cons, List.foldl_nil]
  apply foldl_hrefStep_sameHost
  apply foldl_hrefStep_sameHost
  intro l hl
  simp at hl

/-! ## C10 -/

/-- C10: for every HTML body, page URL and comparison base URL, every link in the link set
returned by `extractEmailsAndLinksFromHTML` parses as a URL whose host is equal to the host
of the parsed base URL; a resolved link that parses with a host different from the base
host is never in the returned set. -/
theorem extractEmailsAndLinksFromHTML_same_host (net : NetURL) (caseTable : Char → Char)
    (findAllEmails : String → List String) (html targetURL baseURL : String) :
    (∀ l ∈ (extractEmailsAndLinksFromHTML net caseTable findAllEmails html targetURL
        baseURL).2,
      ∃ u b, net.Parse l = some u ∧ net.Parse baseURL = some b ∧ net.Host u = net.Host b) ∧
    (∀ r u b, net.Parse r = some u → net.Parse baseURL = some b → net.Host u ≠ net.Host b →
      r ∉ (extractEmailsAndLinksFromHTML net caseTable findAllEmails html targetURL
        baseURL).2) := by
  refine ⟨extract_links_sameHost net caseTable findAllEmails html targetURL baseURL, ?_⟩
  intro r u b hu hb hne hr
  obtain ⟨u', b', hu', hb', hhost⟩ :=
    extract_links_sameHost net caseTable findAllEmails html targetURL baseURL r hr
  rw [hu] at hu'
  rw [hb] at hb'
  cases hu'
  cases hb'
  exact hne hhost

/-- C10 on a page with three links, of which only the one to the own host is returned. -/
theorem extractEmailsAndLinksFromHTML_same_host_witness :
    (extractEmailsAndLinksFromHTML textURL id (fun _ => []) samplePage "http://site.test"
        "http://site.test").2 = ["http://site.test/watch"] ∧
    (∃ u b, textURL.Parse "http://site.test/watch" = some u ∧
      textURL.Parse "http://site.test" = some b ∧ textURL.Host u = textURL.Host b) ∧
    "http://other.test/site.test" ∉
      (extractEmailsAndLinksFromHTML textURL id (fun _ => []) samplePage "http://site.test"
        "http://site.test").2 :=
  ⟨by decide,
    (extractEmailsAndLinksFromHTML_same_host textURL id (fun _ => []) samplePage
      "http://site.test" "http://site.test").1 "http://site.test/watch" (by decide),
    (extractEmailsAndLinksFromHTML_same_host textURL id (fun _ => []) samplePage
      "http://site.test" "http://site.test").2 "http://other.test/site.test"
      "http://other.test/site.test" "http://site.test" rfl rfl (by decide)⟩

/-! ## Lemmas on the favicon truncation -/

/-- Element 0 of a split at a separator that occurs: the text before the earliest
occurrence of the separator. -/
theorem splitLoop_head (sep l cur : List Char) (h : sep <:+: l) :
    ∃ pre post, l = pre ++ sep ++ post ∧
      (∀ pre' post', l = pre' ++ sep ++ post' → pre.length ≤ pre'.length) ∧
      (splitLoop sep 0 cur l).head? = some (cur ++ pre) := by
  induction l generalizing cur with
  | nil =>
    have hs : sep = [] := List.infix_nil.1 h
    subst hs
    exact ⟨[], [], rfl, fun _ _ _ => Nat.zero_le _, by simp [splitLoop]⟩
  | cons c cs ih =>
    by_cases hp : sep.isPrefixOf (c :: cs) = true
    · obtain ⟨post, hpost⟩ := List.isPrefixOf_iff_prefix.1 hp
      refine ⟨[], post, by simpa using hpost.symm, fun _ _ _ => Nat.zero_le _, ?_⟩
      simp [splitLoop, hp]
    · have hcs : sep <:+: cs := by
        rcases List.infix_cons_iff.1 h with h' | h'
        · exact absurd (List.isPrefixOf_iff_prefix.2 h') hp
        · exact h'
      obtain ⟨pre, post, hsplit, hmin, hhead⟩ := ih (cur ++ [c]) hcs
      refine ⟨c :: pre, post, by simp [hsplit], ?_, ?_⟩
      · intro pre' post' hl
        cases pre' with
        | nil =>
          exact absurd (List.isPrefixOf_iff_prefix.2 ⟨post', by simpa using hl.symm⟩) hp
        | cons d p =>
          have hcs' : cs = p ++ sep ++ post' := by
            simp only [List.cons_append, List.cons.injEq] at hl
            exact hl.2
          have := hmin p post' hcs'
          simp only [List.length_cons]
          omega
      · have hstep : splitLoop sep 0 cur (c :: cs) = splitLoop sep 0 (cur ++ [c]) cs := by
          simp [splitLoop, hp]
        rw [hstep, hhead]
        simp

/-- Element 0 of `strings.Split(u, pat)` followed by `pat` is the prefix of `u` that ends
immediately after the first occurrence of `pat`, when `pat` is not empty and occurs. -/
theorem endsAfterFirst_split (pat u : String) (hpat : pat.data.isEmpty = false)
    (h : IsSubstring pat u) : EndsAfterFirst pat u ((Split u pat).headD "" ++ pat) := by
  obtain ⟨pre, post, hsplit, hmin, hhead⟩ :=
    splitLoop_head pat.data u.data [] ((isSubstring_iff_data pat u).1 h)
  refine ⟨⟨pre⟩, ⟨post⟩, ?_, ?_, ?_⟩
  · apply String.ext
    simp [String.data_append, hsplit]
  · intro pre' post' hu
    have hd := congrArg String.data hu
    simp only [String.data_append] at hd
    exact hmin pre'.data post'.data hd
  · have h0 : (Split u pat).headD "" = ⟨pre⟩ := by
      simp [Split, hpat, List.headD_eq_head?_getD, List.head?_map, hhead]
    rw [h0]

theorem getFaviconUrlsFromHTML_loop (f : String → String) (hrefs acc : List String) :
    hrefs.foldl (fun favicons href => favicons ++ [truncateFaviconURL (f href)]) acc =
      acc ++ hrefs.map (fun href => truncateFaviconURL (f href)) := by
  induction hrefs generalizing acc with
  | nil => simp
  | cons a t ih => simp [List.foldl_cons, ih]

/-- Every favicon returned by `getFaviconUrlsFromHTML` is the truncation of an absolute URL. -/
theorem getFaviconUrlsFromHTML_truncated (net : NetURL)
    (resolvePath : net.URL → String → String) (iconHrefs : String → Option (List String))
    (htmlContent baseURL : String) (favicons : List String)
    (h : getFaviconUrlsFromHTML net resolvePath iconHrefs htmlContent baseURL = some favicons) :
    ∀ f ∈ favicons, ∃ absoluteURL, f = truncateFaviconURL absoluteURL := by
  unfold getFaviconUrlsFromHTML at h
  cases hh : iconHrefs htmlContent with
  | none => simp [hh] at h
  | some hrefs =>
    cases hb : net.Parse baseURL with
    | none => simp [hh, hb] at h
    | some base =>
      simp only [hh, hb, Option.some.injEq] at h
      rw [getFaviconUrlsFromHTML_loop
        (fun href => if HasPrefix href "http" then href else resolvePath base href)] at h
      subst h
      intro f hf
      simp only [List.nil_append, List.mem_map] at hf
      obtain ⟨href, _, rfl⟩ := hf
      exact ⟨_, rfl⟩

/-- The two tests of the truncation step, in their order, in terms of first occurrences. -/
theorem truncateFaviconURL_cases (u : String) :
    (IsSubstring ".png" u → EndsAfterFirst ".png" u (truncateFaviconURL u)) ∧
    (¬ IsSubstring ".png" u → IsSubstring ".ico" u →
      EndsAfterFirst ".ico" u (truncateFaviconURL u)) ∧
    (¬ IsSubstring ".png" u → ¬ IsSubstring ".ico" u → truncateFaviconURL u = u) := by
  refine ⟨fun hpng => ?_, fun hpng hico => ?_, fun hpng hico => ?_⟩
  · have hc : Contains u ".png" = true := (Contains_iff _ _).2 hpng
    have ht : truncateFaviconURL u = (Split u ".png").headD "" ++ ".png" := by
      simp [truncateFaviconURL, hc]
    rw [ht]
    exact endsAfterFirst_split ".png" u (by decide) hpng
  · have hc : ¬ Contains u ".png" = true := fun h => hpng ((Contains_iff _ _).1 h)
    have hc' : Contains u ".ico" = true := (Contains_iff _ _).2 hico
    have ht : truncateFaviconURL u = (Split u ".ico").headD "" ++ ".ico" := by
      simp [truncateFaviconURL, hc, hc']
    rw [ht]
    exact endsAfterFirst_split ".ico" u (by decide) hico
  · have hc : ¬ Contains u ".png" = true := fun h => hpng ((Contains_iff _ _).1 h)
    have hc' : ¬ Contains u ".ico" = true := fun h => hico ((Contains_iff _ _).1 h)
    simp [truncateFaviconURL, hc, hc']

/-- The prefix that ends immediately after the first occurrence of a pattern is unique. -/
theorem endsAfterFirst_unique (pat u r r' : String) (h : EndsAfterFirst pat u r)
    (h' : EndsAfterFirst pat u r') : r = r' := by
  obtain ⟨pre, post, hu, hmin, rfl⟩ := h
  obtain ⟨pre', post', hu', hmin', rfl⟩ := h'
  have hlen : pre.data.length = pre'.data.length :=
    Nat.le_antisymm (hmin pre' post' hu') (hmin' pre post hu)
  have hd : pre.data ++ (pat.data ++ post.data) = pre'.data ++ (pat.data ++ post'.data) := by
    have h1 := congrArg String.data hu
    have h2 := congrArg String.data hu'
    simp only [String.data_append, List.append_assoc] at h1 h2
    rw [← h1, ← h2]
  have hpre : pre = pre' := String.ext (List.append_inj hd hlen).1
  rw [hpre]

theorem truncateFaviconURL_ne_empty (x : String) (hx : x ≠ "") : truncateFaviconURL x ≠ "" := by
  have happ : ∀ a b : String, b.data ≠ [] → a ++ b ≠ "" := by
    intro a b hb h
    have hd := congrArg String.data h
    rw [String.data_append] at hd
    exact hb (List.append_eq_nil.1 hd).2
  unfold truncateFaviconURL
  by_cases h1 : Contains x ".png" = true
  · rw [if_pos h1]
    exact happ _ _ (by decide)
  · rw [if_neg h1]
    by_cases h2 : Contains x ".ico" = true
    · rw [if_pos h2]
      exact happ _ _ (by decide)
    · rw [if_neg h2]
      exact hx

/-- The favicons that `processDomain` stores are never the empty string: an href taken
verbatim starts with "http", a resolved reference is a URL string (not empty, it carries
the scheme of the base), and truncation ends in ".png" or ".ico" or changes nothing. -/
theorem processDomainFavicons_nonempty (net : NetURL) (resolvePath : net.URL → String → String)
    (iconHrefs : String → Option (List String)) (clientGet : String → GetResponse)
    (htmlContent domainURL : String) (hres : ∀ b h, resolvePath b h ≠ "") :
    ∀ f ∈ processDomainFavicons net resolvePath iconHrefs clientGet htmlContent domainURL,
      f ≠ "" := by
  have hfallback : ∀ f ∈ (match getFaviconUrls net resolvePath clientGet domainURL with
      | some fallbackFavicons => if fallbackFavicons.length > 0 then fallbackFavicons else []
      | none => []), f ≠ "" := by
    unfold getFaviconUrls
    cases hb : net.Parse domainURL with
    | none => simp
    | some base =>
      cases hc : clientGet (resolvePath base "/favicon.ico") with
      | err => simp [hc]
      | resp code body =>
        by_cases h200 : code = 200
        · simp [hc, h200, hres]
        · simp [hc, h200]
  have hhtml : ∀ favicons,
      getFaviconUrlsFromHTML net resolvePath iconHrefs htmlContent domainURL = some favicons →
      ∀ f ∈ favicons, f ≠ "" := by
    intro favicons hf
    unfold getFaviconUrlsFromHTML at hf
    cases hh : iconHrefs htmlContent with
    | none => simp [hh] at hf
    | some hrefs =>
      cases hb : net.Parse domainURL with
      | none => simp [hh, hb] at hf
      | some base =>
        simp only [hh, hb, Option.some.injEq] at hf
        rw [getFaviconUrlsFromHTML_loop
          (fun href => if HasPrefix href "http" then href else resolvePath base href)] at hf
        subst hf
        intro f hmem
        simp only [List.nil_append, List.mem_map] at hmem
        obtain ⟨href, _, rfl⟩ := hmem
        apply truncateFaviconURL_ne_empty
        by_cases hp : HasPrefix href "http" = true
        · rw [if_pos hp]
          intro he
          rw [he] at hp
          exact absurd hp (by decide)
        · rw [if_neg hp]
          exact hres base href
  unfold processDomainFavicons
  cases hg : getFaviconUrlsFromHTML net resolvePath iconHrefs htmlContent domainURL with
  | none => exact hfallback
  | some favicons =>
    by_cases hpos : favicons.length > 0
    · simp only [hpos, if_true]
      exact hhtml favicons hg
    · simp only [hpos, if_false]
      exact hfallback

/-- Where ".ico" names the file and ".png" occurs only in the query string, the step cuts
after that ".png" and so returns the URL with its query string, although the comment on
the step (stoppiracy.go 113) says that query parameters are stripped. -/
theorem truncateFaviconURL_keeps_query :
    truncateFaviconURL "http://site.test/favicon.ico?src=logo.png" =
      "http://site.test/favicon.ico?src=logo.png" := by
  decide

/-! ## C11 -/

/-- C11, as the claim states it, fails for a URL in which ".ico" occurs before ".png": in
the URL below the first ".ico" lies in the host name, so the prefix that ends after the
first occurrence of either pattern is "http://img.ico"; the truncation step tests ".png"
first, cuts after the first ".png" and returns the whole URL. -/
theorem truncateFaviconURL_ico_before_png :
    EndsAfterFirst ".ico" iconOnIconsHost "http://img.ico" ∧
    EndsAfterFirst ".png" iconOnIconsHost iconOnIconsHost ∧
    "http://img.ico".length < iconOnIconsHost.length ∧
    truncateFaviconURL iconOnIconsHost = iconOnIconsHost ∧
    truncateFaviconURL iconOnIconsHost ≠ "http://img.ico" := by
  have hico := endsAfterFirst_split ".ico" iconOnIconsHost (by decide)
    ((Contains_iff _ _).1 (by decide))
  have hpng := endsAfterFirst_split ".png" iconOnIconsHost (by decide)
    ((Contains_iff _ _).1 (by decide))
  have e1 : (Split iconOnIconsHost ".ico").headD "" ++ ".ico" = "http://img.ico" := by decide
  have e2 : (Split iconOnIconsHost ".png").headD "" ++ ".png" = iconOnIconsHost := by decide
  rw [e1] at hico
  rw [e2] at hpng
  exact ⟨hico, hpng, by decide, by decide, by decide⟩

/-- C11 (amended): for every absolute favicon URL `u`, with `P` the prefix of `u` that
ends immediately after the first ".png" and `I` the one that ends immediately after the
first ".ico": the truncation step of `getFaviconUrlsFromHTML` yields `P` when `u` contains
".png" and either no ".ico" occurs before that ".png" (`P` is not longer than `I`) or that
".png" lies before any query string or fragment (`P` holds no "?" and no "#"), also when
".ico" occurs earlier, as in a host name; it yields `I` when `u` contains ".ico" and no
".png"; what follows the occurrence is discarded; a URL that contains neither is left
unchanged.  Nothing is stated for a URL in which ".ico" occurs first and the first ".png"
lies in the query string or fragment. -/
theorem truncateFaviconURL_first_occurrence (u : String) :
    (∀ P : String, EndsAfterFirst ".png" u P →
      ((∀ I : String, EndsAfterFirst ".ico" u I → P.length ≤ I.length) ∨
        (¬ IsSubstring "?" P ∧ ¬ IsSubstring "#" P)) →
      truncateFaviconURL u = P) ∧
    (¬ IsSubstring ".png" u → ∀ I : String, EndsAfterFirst ".ico" u I →
      truncateFaviconURL u = I) ∧
    (¬ IsSubstring ".png" u → ¬ IsSubstring ".ico" u → truncateFaviconURL u = u) := by
  obtain ⟨hpng, hico, hnone⟩ := truncateFaviconURL_cases u
  refine ⟨fun P hP _ => ?_, fun hno I hI => ?_, hnone⟩
  · have hsub : IsSubstring ".png" u := by
      obtain ⟨pre, post, hu, _, _⟩ := hP
      exact ⟨pre, post, hu⟩
    exact endsAfterFirst_unique ".png" u _ _ (hpng hsub) hP
  · have hsub : IsSubstring ".ico" u := by
      obtain ⟨pre, post, hu, _, _⟩ := hI
      exact ⟨pre, post, hu⟩
    exact endsAfterFirst_unique ".ico" u _ _ (hico hno hsub) hI

/-- C11 (amended) on a ".png" URL without ".ico" whose query string is cut off, on a ".png"
URL whose host name holds ".ico", on a ".ico" URL with a fragment, and on a URL with
neither pattern. -/
theorem truncateFaviconURL_first_occurrence_witness :
    truncateFaviconURL "http://site.test/a.png?v=1.png" = "http://site.test/a.png" ∧
    truncateFaviconURL iconOnIconsHost = iconOnIconsHost ∧
    truncateFaviconURL "http://site.test/favicon.ico#top" = "http://site.test/favicon.ico" ∧
    truncateFaviconURL "http://site.test/icon.svg" = "http://site.test/icon.svg" := by
  have hP1 : EndsAfterFirst ".png" "http://site.test/a.png?v=1.png" "http://site.test/a.png" := by
    have h := endsAfterFirst_split ".png" "http://site.test/a.png?v=1.png" (by decide)
      ((Contains_iff _ _).1 (by decide))
    have e : (Split "http://site.test/a.png?v=1.png" ".png").headD "" ++ ".png" =
        "http://site.test/a.png" := by decide
    rw [e] at h
    exact h
  have hP2 : EndsAfterFirst ".png" iconOnIconsHost iconOnIconsHost := by
    have h := endsAfterFirst_split ".png" iconOnIconsHost (by decide)
      ((Contains_iff _ _).1 (by decide))
    have e : (Split iconOnIconsHost ".png").headD "" ++ ".png" = iconOnIconsHost := by decide
    rw [e] at h
    exact h
  have hI3 : EndsAfterFirst ".ico" "http://site.test/favicon.ico#top"
      "http://site.test/favicon.ico" := by
    have h := endsAfterFirst_split ".ico" "http://site.test/favicon.ico#top" (by decide)
      ((Contains_iff _ _).1 (by decide))
    have e : (Split "http://site.test/favicon.ico#top" ".ico").headD "" ++ ".ico" =
        "http://site.test/favicon.ico" := by decide
    rw [e] at h
    exact h
  have hnot : ∀ pat s : String, Contains s pat = false → ¬ IsSubstring pat s :=
    fun pat s hc h => absurd ((Contains_iff s pat).2 h) (by rw [hc]; decide)
  have hnoico : ∀ I : String, ¬ EndsAfterFirst ".ico" "http://site.test/a.png?v=1.png" I := by
    intro I hI
    obtain ⟨pre, post, hu, _, _⟩ := hI
    exact hnot ".ico" _ (by decide) ⟨pre, post, hu⟩
  exact ⟨(truncateFaviconURL_first_occurrence "http://site.test/a.png?v=1.png").1 _ hP1
      (Or.inl (fun I hI => absurd hI (hnoico I))),
    (truncateFaviconURL_first_occurrence iconOnIconsHost).1 _ hP2
      (Or.inr ⟨hnot _ _ (by decide), hnot _ _ (by decide)⟩),
    (truncateFaviconURL_first_occurrence "http://site.test/favicon.ico#top").2.1
      (hnot _ _ (by decide)) _ hI3,
    (truncateFaviconURL_first_occurrence "http://site.test/icon.svg").2.2
      (hnot _ _ (by decide)) (hnot _ _ (by decide))⟩

end Stoppiracy
